import Mathlib

/-!
Verification of the pcregexp match-iteration layer and pattern classifier.

Subjects, patterns and templates are byte sequences, modelled as `List Nat`
(each element a byte value). The PCRE2 matching engine itself is an external
C library reached over FFI; it is modelled as an abstract query primitive
returning the leftmost match of the remaining subject as capture-slot byte
ranges (slot 0 always present, within the subject, with start ≤ end —
the guarantees of pcre2_match for a successful return). All iteration
operations of the Go source are translated over this primitive.

Loops of the source are translated as fuel-indexed structural recursions;
every top-level operation supplies fuel that dominates the number of
iterations the Go loop can perform (each iteration consumes at least one
byte of the remaining subject). `Split` is the exception: its Go loop can
genuinely run forever, so its model returns `Option`, with `none` meaning
the fuel ran out (for the divergence result we show `none` for every fuel).
-/

/-! ## UTF-8 decoding, after Go's unicode/utf8 DecodeRune / DecodeRuneInString -/

def utf8RuneError : Nat := 65533

/-- Decode a single UTF-8 codepoint from the front of a byte sequence,
returning (rune, size) exactly as Go's `utf8.DecodeRune`: `(RuneError, 0)`
on empty input, `(RuneError, 1)` on any invalid or truncated encoding. -/
def utf8DecodeRune (p : List Nat) : Nat × Nat :=
  match p with
  | [] => (utf8RuneError, 0)
  | b0 :: rest =>
    if b0 < 128 then (b0, 1)
    else if b0 < 194 then (utf8RuneError, 1)
    else if b0 < 224 then
      match rest with
      | b1 :: _ =>
        if 128 ≤ b1 ∧ b1 ≤ 191 then ((b0 - 192) * 64 + (b1 - 128), 2)
        else (utf8RuneError, 1)
      | [] => (utf8RuneError, 1)
    else if b0 < 240 then
      match rest with
      | b1 :: rest2 =>
        if (if b0 = 224 then 160 else 128) ≤ b1 ∧ b1 ≤ (if b0 = 237 then 159 else 191) then
          match rest2 with
          | b2 :: _ =>
            if 128 ≤ b2 ∧ b2 ≤ 191 then
              ((b0 - 224) * 4096 + (b1 - 128) * 64 + (b2 - 128), 3)
            else (utf8RuneError, 1)
          | [] => (utf8RuneError, 1)
        else (utf8RuneError, 1)
      | [] => (utf8RuneError, 1)
    else if b0 < 245 then
      match rest with
      | b1 :: rest2 =>
        if (if b0 = 240 then 144 else 128) ≤ b1 ∧ b1 ≤ (if b0 = 244 then 143 else 191) then
          match rest2 with
          | b2 :: rest3 =>
            if 128 ≤ b2 ∧ b2 ≤ 191 then
              match rest3 with
              | b3 :: _ =>
                if 128 ≤ b3 ∧ b3 ≤ 191 then
                  ((b0 - 240) * 262144 + (b1 - 128) * 4096 + (b2 - 128) * 64 + (b3 - 128), 4)
                else (utf8RuneError, 1)
              | [] => (utf8RuneError, 1)
            else (utf8RuneError, 1)
          | [] => (utf8RuneError, 1)
        else (utf8RuneError, 1)
      | [] => (utf8RuneError, 1)
    else (utf8RuneError, 1)

/-! ## The engine query primitive

`MatchRes s` is one answer of the engine for subject `s`: the slot-0 span
(always set, within the subject, ordered) plus the remaining capture-slot
offsets exactly as the Go `match` method copies them out of the pcre2
ovector (unset groups appear as negative values there). -/

structure MatchRes (s : List Nat) where
  start : Nat
  stop : Nat
  rest : List Int
  h_le : start ≤ stop
  h_stop : stop ≤ s.length

def Engine : Type := (s : List Nat) → Option (MatchRes s)

/-- The `PCREgexp` struct of the source: original pattern text, the two
handle words (`code`, `matchData`; 0 means null), and the behaviour of
`pcre2_match` on the compiled code, abstracted as an `Engine`. -/
structure PCREgexp where
  pattern : List Nat
  code : Nat
  matchData : Nat
  f : Engine

/-- The `match` method of the source (named `runMatch` here because `match`
is a Lean keyword): returns nil when the code handle is null or the subject
is empty, otherwise queries the engine. -/
def PCREgexp.runMatch (re : PCREgexp) (subject : List Nat) : Option (MatchRes subject) :=
  if re.code = 0 ∨ subject.length = 0 then none else re.f subject

/-- The `Close` method: frees and zeroes both handles; the nil guards make
a second call a no-op. -/
def PCREgexp.Close (re : PCREgexp) : PCREgexp :=
  { re with matchData := 0, code := 0 }

/-- `MatchString` (and `Match`, which is the same code on bytes). -/
def PCREgexp.MatchString (re : PCREgexp) (s : List Nat) : Bool :=
  (re.runMatch s).isSome

/-- `FindString`: text of the leftmost match, or the empty string. -/
def PCREgexp.FindString (re : PCREgexp) (s : List Nat) : List Nat :=
  match re.runMatch s with
  | none => []
  | some m => (s.drop m.start).take (m.stop - m.start)

/-- `Find`: bytes of the leftmost match, or nil (modelled as `none`). -/
def PCREgexp.Find (re : PCREgexp) (b : List Nat) : Option (List Nat) :=
  match re.runMatch b with
  | none => none
  | some m => some ((b.drop m.start).take (m.stop - m.start))

/-- `FindStringIndex` / `FindIndex` / `FindSubmatchIndex` /
`FindStringSubmatchIndex` all return `re.match` unchanged. -/
def PCREgexp.FindStringIndex (re : PCREgexp) (s : List Nat) : Option (MatchRes s) :=
  re.runMatch s

/-! ## FindAllString -/

/-- Loop body of `FindAllString`: repeatedly match the remaining suffix,
emit the matched text, and advance past the match — one decoded codepoint
past a zero-width match (stopping if it sits at the end of the remainder). -/
def findAllStringGo (re : PCREgexp) : Nat → List Nat → Int → List (List Nat)
  | 0, _, _ => []
  | fuel + 1, remaining, n =>
    if n = 0 then []
    else
      match re.runMatch remaining with
      | none => []
      | some m =>
        let piece := (remaining.drop m.start).take (m.stop - m.start)
        if m.start = m.stop then
          if m.stop ≥ remaining.length then [piece]
          else
            let sz := (utf8DecodeRune (remaining.drop m.stop)).2
            piece :: findAllStringGo re fuel (remaining.drop (m.stop + sz)) (n - 1)
        else
          piece :: findAllStringGo re fuel (remaining.drop m.stop) (n - 1)

/-- `FindAllString` (identical loop to the byte variant `FindAll`). -/
def PCREgexp.FindAllString (re : PCREgexp) (s : List Nat) (n : Int) : List (List Nat) :=
  findAllStringGo re (s.length + 1) s n

/-! ## FindAllStringIndex and its absolute-coordinate reference -/

/-- Loop body of `FindAllStringIndex` / `FindAllIndex`: same scan as
`FindAllString`, emitting the slot-0 span translated by the cumulative
offset of the consumed prefix. -/
def findAllStringIndexGo (re : PCREgexp) :
    Nat → List Nat → Nat → Int → List (Nat × Nat)
  | 0, _, _, _ => []
  | fuel + 1, remaining, offset, n =>
    if n = 0 then []
    else
      match re.runMatch remaining with
      | none => []
      | some m =>
        let adj := (m.start + offset, m.stop + offset)
        if m.start = m.stop then
          if m.stop ≥ remaining.length then [adj]
          else
            let sz := (utf8DecodeRune (remaining.drop m.stop)).2
            adj :: findAllStringIndexGo re fuel (remaining.drop (m.stop + sz))
              (offset + m.stop + sz) (n - 1)
        else
          adj :: findAllStringIndexGo re fuel (remaining.drop m.stop) (offset + m.stop) (n - 1)

/-- `FindAllStringIndex` (identical loop to the byte variant `FindAllIndex`). -/
def PCREgexp.FindAllStringIndex (re : PCREgexp) (s : List Nat) (n : Int) : List (Nat × Nat) :=
  findAllStringIndexGo re (s.length + 1) s 0 n

/-- Reference scan for the offset-translation property: it never re-slices
away the consumed prefix; it keeps an absolute cursor into the original
subject and emits spans directly in the original coordinate space. -/
def findAllIndexAbsGo (re : PCREgexp) (s : List Nat) :
    Nat → Nat → Int → List (Nat × Nat)
  | 0, _, _ => []
  | fuel + 1, pos, n =>
    if n = 0 then []
    else
      match re.runMatch (s.drop pos) with
      | none => []
      | some m =>
        let span := (m.start + pos, m.stop + pos)
        if m.start = m.stop then
          if m.stop ≥ (s.drop pos).length then [span]
          else
            let sz := (utf8DecodeRune (s.drop (pos + m.stop))).2
            span :: findAllIndexAbsGo re s fuel (pos + m.stop + sz) (n - 1)
        else
          span :: findAllIndexAbsGo re s fuel (pos + m.stop) (n - 1)

def findAllIndexAbs (re : PCREgexp) (s : List Nat) (n : Int) : List (Nat × Nat) :=
  findAllIndexAbsGo re s (s.length + 1) 0 n

/-! ## FindAllStringSubmatchIndex and its absolute-coordinate reference -/

/-- Offset adjustment of one emitted slot vector, as in the Go loop: every
non-negative entry is shifted by the cumulative offset, negative (unset)
entries are kept as they are. Slot 0 is always set. -/
def adjustSlots (offset : Nat) {s : List Nat} (m : MatchRes s) : List Int :=
  ((m.start : Int) + offset) :: ((m.stop : Int) + offset) ::
    m.rest.map (fun v => if 0 ≤ v then v + offset else v)

/-- Loop body of `FindAllStringSubmatchIndex` / `FindAllSubmatchIndex`. -/
def findAllSubmatchIndexGo (re : PCREgexp) :
    Nat → List Nat → Nat → Int → List (List Int)
  | 0, _, _, _ => []
  | fuel + 1, remaining, offset, n =>
    if n = 0 then []
    else
      match re.runMatch remaining with
      | none => []
      | some m =>
        let adj := adjustSlots offset m
        if m.start = m.stop then
          if m.stop ≥ remaining.length then [adj]
          else
            let sz := (utf8DecodeRune (remaining.drop m.stop)).2
            adj :: findAllSubmatchIndexGo re fuel (remaining.drop (m.stop + sz))
              (offset + m.stop + sz) (n - 1)
        else
          adj :: findAllSubmatchIndexGo re fuel (remaining.drop m.stop) (offset + m.stop) (n - 1)

/-- `FindAllStringSubmatchIndex` (identical loop to `FindAllSubmatchIndex`). -/
def PCREgexp.FindAllStringSubmatchIndex (re : PCREgexp) (s : List Nat) (n : Int) :
    List (List Int) :=
  findAllSubmatchIndexGo re (s.length + 1) s 0 n

/-- Absolute-coordinate reference for the submatch-index scan. -/
def findAllSubmatchIndexAbsGo (re : PCREgexp) (s : List Nat) :
    Nat → Nat → Int → List (List Int)
  | 0, _, _ => []
  | fuel + 1, pos, n =>
    if n = 0 then []
    else
      match re.runMatch (s.drop pos) with
      | none => []
      | some m =>
        let adj := adjustSlots pos m
        if m.start = m.stop then
          if m.stop ≥ (s.drop pos).length then [adj]
          else
            let sz := (utf8DecodeRune (s.drop (pos + m.stop))).2
            adj :: findAllSubmatchIndexAbsGo re s fuel (pos + m.stop + sz) (n - 1)
        else
          adj :: findAllSubmatchIndexAbsGo re s fuel (pos + m.stop) (n - 1)

def findAllSubmatchIndexAbs (re : PCREgexp) (s : List Nat) (n : Int) : List (List Int) :=
  findAllSubmatchIndexAbsGo re s (s.length + 1) 0 n

/-! ## ReplaceAllString -/

/-- Loop body of `ReplaceAllString`: for each match append the unmatched
prefix and the replacement verbatim; after a zero-width match either stop
(flushing the rest) when the decoded rune is RuneError or the size is 0, or
copy the decoded codepoint and continue past it; a zero-width match at the
very end continues with the empty remainder (whose match query returns nil). -/
def replaceAllStringGo (re : PCREgexp) (repl : List Nat) : Nat → List Nat → List Nat
  | 0, remaining => remaining
  | fuel + 1, remaining =>
    match re.runMatch remaining with
    | none => remaining
    | some m =>
      let pre := remaining.take m.start
      if m.start = m.stop then
        if m.stop < remaining.length then
          let rs := utf8DecodeRune (remaining.drop m.stop)
          if rs.1 = utf8RuneError ∨ rs.2 = 0 then
            pre ++ repl ++ remaining.drop m.stop
          else
            pre ++ repl ++ (remaining.drop m.stop).take rs.2 ++
              replaceAllStringGo re repl fuel (remaining.drop (m.stop + rs.2))
        else
          pre ++ repl ++ replaceAllStringGo re repl fuel []
      else
        pre ++ repl ++ replaceAllStringGo re repl fuel (remaining.drop m.stop)

/-- `ReplaceAllString`; the empty source short-circuits to the empty string. -/
def PCREgexp.ReplaceAllString (re : PCREgexp) (src repl : List Nat) : List Nat :=
  if src = [] then [] else replaceAllStringGo re repl (src.length + 1) src

/-- `ReplaceAll` converts to string and delegates to `ReplaceAllString`. -/
def PCREgexp.ReplaceAll (re : PCREgexp) (src repl : List Nat) : List Nat :=
  re.ReplaceAllString src repl

/-- `ReplaceAllLiteral` delegates to `ReplaceAll`. -/
def PCREgexp.ReplaceAllLiteral (re : PCREgexp) (src repl : List Nat) : List Nat :=
  re.ReplaceAll src repl

/-- `ReplaceAllLiteralString` delegates to `ReplaceAllString`. -/
def PCREgexp.ReplaceAllLiteralString (re : PCREgexp) (src repl : List Nat) : List Nat :=
  re.ReplaceAllString src repl

/-! ## Split -/

/-- Loop body of `Split`: each separator match on the remaining suffix is
dropped, the text before it is emitted; with a positive limit the remainder
is appended unsplit once the emitted count equals the limit minus one.
The Go loop has no zero-width-match advance and can run forever, so the
model is fuel-indexed and `none` marks fuel exhaustion. -/
def splitGo (re : PCREgexp) (s : List Nat) (n : Int) :
    Nat → Nat → List (List Nat) → Option (List (List Nat))
  | 0, _, _ => none
  | fuel + 1, pos, parts =>
    match re.runMatch (s.drop pos) with
    | none => some (parts ++ [s.drop pos])
    | some m =>
      let parts2 := parts ++ [(s.drop pos).take m.start]
      let pos2 := pos + m.stop
      if 0 < n ∧ (parts2.length : Int) = n - 1 then some (parts2 ++ [s.drop pos2])
      else splitGo re s n fuel pos2 parts2

/-- `Split`; n = 0 yields nil. The initial fuel dominates every terminating
run of the Go loop (any continuing iteration advances the cursor). -/
def PCREgexp.Split (re : PCREgexp) (s : List Nat) (n : Int) : Option (List (List Nat)) :=
  if n = 0 then some [] else splitGo re s n (s.length + 2) 0 []

/-! ## Expand -/

def isDigitByte (b : Nat) : Bool := 48 ≤ b ∧ b ≤ 57

/-- Decimal value of a digit run, exactly as the Go loop accumulates it. -/
def digitsVal (ds : List Nat) : Nat := ds.foldl (fun acc d => acc * 10 + (d - 48)) 0

/-- Go slice expression `src[a:b]` over `Int` bounds: defined when
0 ≤ a ≤ b ≤ len(src), a runtime panic (`none`) otherwise. -/
def sliceBytes (src : List Nat) (a b : Int) : Option (List Nat) :=
  if 0 ≤ a ∧ a ≤ b ∧ b ≤ (src.length : Int) then
    some ((src.drop a.toNat).take (b - a).toNat)
  else none

/-- Entry `i` of a Go `[]int`; only consulted under an `i < length` guard. -/
def intGet (l : List Int) (i : Nat) : Int := l.getD i 0

/-- The `expand` method's scan over the template: `$$` emits a literal `$`;
`$` followed by a maximal digit run with value `g` substitutes
`src[match[2g]:match[2g+1]]` whenever `2g < len(match)` — indexing
`match[2g+1]` or slicing with negative or unordered offsets panics
(modelled as `none`); any other byte is appended verbatim. -/
def expandGo (src : List Nat) (mtch : List Int) : Nat → List Nat → Option (List Nat)
  | 0, _ => some []
  | _ + 1, [] => some []
  | _ + 1, [t0] => some [t0]
  | fuel + 1, t0 :: t1 :: rest2 =>
    if t0 = 36 then
      if t1 = 36 then (expandGo src mtch fuel rest2).map (fun tl => 36 :: tl)
      else if isDigitByte t1 then
        let ds := (t1 :: rest2).takeWhile isDigitByte
        let g := digitsVal ds
        let rest3 := (t1 :: rest2).dropWhile isDigitByte
        if 2 * g < mtch.length then
          if 2 * g + 1 < mtch.length then
            match sliceBytes src (intGet mtch (2 * g)) (intGet mtch (2 * g + 1)) with
            | none => none
            | some piece => (expandGo src mtch fuel rest3).map (fun tl => piece ++ tl)
          else none
        else expandGo src mtch fuel rest3
      else (expandGo src mtch fuel (t1 :: rest2)).map (fun tl => 36 :: tl)
    else (expandGo src mtch fuel (t1 :: rest2)).map (fun tl => t0 :: tl)

/-- `Expand` / `ExpandString`: append the expansion of the template to dst. -/
def PCREgexp.Expand (_re : PCREgexp) (dst template src : List Nat) (mtch : List Int) :
    Option (List Nat) :=
  (expandGo src mtch (template.length + 1) template).map (fun tl => dst ++ tl)

/-- Modelled from the claim's words ("substitutes
subject[matchOffsets[2g]:matchOffsets[2g+1]] if 2g+1 < len(matchOffsets)
and both offsets are non-negative, and substitutes nothing otherwise"):
the total template-expansion function the claim describes. -/
def expandTemplateSpec (subject : List Nat) (matchOffsets : List Int) :
    Nat → List Nat → List Nat
  | 0, _ => []
  | _ + 1, [] => []
  | _ + 1, [t0] => [t0]
  | fuel + 1, t0 :: t1 :: rest2 =>
    if t0 = 36 then
      if t1 = 36 then 36 :: expandTemplateSpec subject matchOffsets fuel rest2
      else if isDigitByte t1 then
        let g := digitsVal ((t1 :: rest2).takeWhile isDigitByte)
        let rest3 := (t1 :: rest2).dropWhile isDigitByte
        (if 2 * g + 1 < matchOffsets.length ∧ 0 ≤ intGet matchOffsets (2 * g) ∧
            0 ≤ intGet matchOffsets (2 * g + 1) then
          (subject.drop (intGet matchOffsets (2 * g)).toNat).take
            (intGet matchOffsets (2 * g + 1) - intGet matchOffsets (2 * g)).toNat
        else []) ++ expandTemplateSpec subject matchOffsets fuel rest3
      else 36 :: expandTemplateSpec subject matchOffsets fuel (t1 :: rest2)
    else t0 :: expandTemplateSpec subject matchOffsets fuel (t1 :: rest2)

/-- Top-level form of the claim's template expansion. -/
def expandTemplateSpecTop (subject : List Nat) (matchOffsets : List Int)
    (template : List Nat) : List Nat :=
  expandTemplateSpec subject matchOffsets (template.length + 1) template

/-- Well-formedness of a match-offset vector against a subject: an even
number of entries, each pair in range and ordered. All vectors produced by
`FindSubmatchIndex` on a successful fully-participating match satisfy it. -/
def OffsetsWF (src : List Nat) (mtch : List Int) : Prop :=
  ∀ g < mtch.length, 2 * g < mtch.length →
    2 * g + 1 < mtch.length ∧ 0 ≤ intGet mtch (2 * g) ∧
      intGet mtch (2 * g) ≤ intGet mtch (2 * g + 1) ∧
      intGet mtch (2 * g + 1) ≤ (src.length : Int)

/-! ## The pattern classifier (package regexp: needsPCRE, contains) -/

/-- Decides whether `pat` is a prefix of `s` (the inner byte-comparison
loop of the Go `contains`). -/
def startsWithB : List Nat → List Nat → Bool
  | _, [] => true
  | [], _ :: _ => false
  | c :: s, d :: t => if c = d then startsWithB s t else false

/-- The escape-aware scan of `contains`: positions are visited left to
right; a backslash toggles the escaped flag and is never a match position;
at an unescaped non-backslash position the needle is compared; the scan
ends when fewer bytes than the needle remain. -/
def containsAux (needle : List Nat) : List Nat → Bool → Bool
  | [], _ => false
  | c :: rest, esc =>
    if rest.length + 1 < needle.length then false
    else if c = 92 then containsAux needle rest (!esc)
    else if esc = false ∧ startsWithB (c :: rest) needle = true then true
    else containsAux needle rest false

/-- The `contains` helper of the source. -/
def containsGo (s needle : List Nat) : Bool := containsAux needle s false

/-- Capturing-group counting loop of `needsPCRE`: unescaped `(` counts
unless followed by `?:` or `?P` (with the third byte present). -/
def countGroupsAux : List Nat → Bool → Nat
  | [], _ => 0
  | c :: rest, esc =>
    if c = 92 then countGroupsAux rest (!esc)
    else if esc = false ∧ c = 40 then
      match rest with
      | r1 :: r2 :: _ =>
        if r1 = 63 ∧ (r2 = 58 ∨ r2 = 80) then countGroupsAux rest false
        else countGroupsAux rest false + 1
      | _ => countGroupsAux rest false + 1
    else countGroupsAux rest false

/-- Backreference scan of `needsPCRE`: an unescaped backslash immediately
followed by a digit 1-9. -/
def hasBackrefAux : List Nat → Bool → Bool
  | [], _ => false
  | c :: rest, esc =>
    if c = 92 then
      match rest with
      | d :: _ =>
        if esc = false ∧ 49 ≤ d ∧ d ≤ 57 then true else hasBackrefAux rest (!esc)
      | [] => hasBackrefAux rest (!esc)
    else hasBackrefAux rest false

/-- The four lookaround markers searched for by `needsPCRE`:
`(?=`, `(?!`, `(?<=`, `(?<!`. -/
def lookaroundMarkers : List (List Nat) :=
  [[40, 63, 61], [40, 63, 33], [40, 63, 60, 61], [40, 63, 60, 33]]

/-- The classifier `needsPCRE`: true (Backtracking) if an unescaped
lookaround marker occurs, or if there is at least one capturing group and
a backreference token; false (Native) otherwise. -/
def needsPCRE (p : List Nat) : Bool :=
  if lookaroundMarkers.any (fun l => containsGo p l) then true
  else if 0 < countGroupsAux p false then hasBackrefAux p false
  else false

/-! ## Claim-level predicates for the classifier -/

/-- Escaped-state step: a backslash toggles the flag, anything else
clears it. -/
def escStep (e : Bool) (c : Nat) : Bool := if c = 92 then !e else false

/-- Escaped state after consuming a byte sequence. -/
def escAfter (u : List Nat) (e : Bool) : Bool := u.foldl escStep e

/-- Number of consecutive backslashes at the end of a byte sequence. -/
def trailingBS (u : List Nat) : Nat := (u.reverse.takeWhile (fun b => b == 92)).length

/-- A position is unescaped when it is preceded by an even number of
consecutive backslashes. -/
def UnescapedBefore (u : List Nat) : Prop := trailingBS u % 2 = 0

/-- An unescaped occurrence of some lookaround marker. -/
def LookaroundFound (p : List Nat) : Prop :=
  ∃ mk ∈ lookaroundMarkers, ∃ u v, p = u ++ mk ++ v ∧ UnescapedBefore u

/-- The two-byte suffix shapes `?:…` / `?P…` that make a group
non-capturing for the classifier. -/
def SkipGroupForm (v : List Nat) : Prop := ∃ d w, v = 63 :: d :: w ∧ (d = 58 ∨ d = 80)

/-- An unescaped `(` that does not introduce a `?:` or `?P` group. -/
def HasCapturingGroup (p : List Nat) : Prop :=
  ∃ u v, p = u ++ 40 :: v ∧ UnescapedBefore u ∧ ¬ SkipGroupForm v

/-- An unescaped backslash immediately followed by a digit 1-9. -/
def HasBackrefToken (p : List Nat) : Prop :=
  ∃ u d v, p = u ++ 92 :: d :: v ∧ UnescapedBefore u ∧ 49 ≤ d ∧ d ≤ 57

/-! ## The iteration rule described by the claim about zero-width matches

Modelled from the claim's words ("decode one codepoint at that byte offset;
if decoding fails or the offset is at the end of the subject the scan
stops"): the find-all scan with the claimed stop-on-decode-failure rule. -/

def findAllStringClaimGo (re : PCREgexp) : Nat → List Nat → Int → List (List Nat)
  | 0, _, _ => []
  | fuel + 1, remaining, n =>
    if n = 0 then []
    else
      match re.runMatch remaining with
      | none => []
      | some m =>
        let piece := (remaining.drop m.start).take (m.stop - m.start)
        if m.start = m.stop then
          if m.stop ≥ remaining.length then [piece]
          else
            let rs := utf8DecodeRune (remaining.drop m.stop)
            if rs.1 = utf8RuneError ∨ rs.2 = 0 then [piece]
            else piece :: findAllStringClaimGo re fuel (remaining.drop (m.stop + rs.2)) (n - 1)
        else
          piece :: findAllStringClaimGo re fuel (remaining.drop m.stop) (n - 1)

def findAllStringClaim (re : PCREgexp) (s : List Nat) (n : Int) : List (List Nat) :=
  findAllStringClaimGo re (s.length + 1) s n

/-! ## Concrete engine instances used in witnesses and counterexamples -/

/-- An engine matching the empty string at offset 0 of every subject — the
behaviour of the compiled empty pattern (the `match` guard still suppresses
queries on an empty subject). -/
def fEmptyRe : PCREgexp :=
  ⟨[], 1, 0, fun s => some ⟨0, 0, [], Nat.le_refl 0, Nat.zero_le s.length⟩⟩

/-- Leftmost maximal run of the space byte 32, as an index pair. -/
def wsScanA : List Nat → Nat → Option (Nat × Nat)
  | [], _ => none
  | b :: rest, i =>
    if b = 32 then some (i, i + 1 + (rest.takeWhile (fun x => x == 32)).length)
    else wsScanA rest (i + 1)

/-- An engine behaving as the compiled pattern `\s+` does on subjects whose
only whitespace is the space byte: the leftmost maximal run of spaces. -/
def wsRe : PCREgexp :=
  ⟨[92, 115, 43], 1, 0, fun s =>
    match wsScanA s 0 with
    | none => none
    | some (a, b) =>
      if h : a ≤ b ∧ b ≤ s.length then some ⟨a, b, [], h.1, h.2⟩ else none⟩

/-- An engine matching the first two bytes with one capture group over the
first byte — the behaviour of the pattern `(a)b`-style on `"ab"`. -/
def gRe : PCREgexp :=
  ⟨[40, 97, 41, 98], 1, 0, fun s =>
    if h : 2 ≤ s.length then some ⟨0, 2, [0, 1], by omega, h⟩ else none⟩

/-! # Theorems -/

/-! ## Shared facts about the UTF-8 decoder -/

theorem utf8_size_pos (b : Nat) (rest : List Nat) :
    1 ≤ (utf8DecodeRune (b :: rest)).2 := by
  simp only [utf8DecodeRune]
  repeat' split
  all_goals simp

theorem utf8_size_le (p : List Nat) : (utf8DecodeRune p).2 ≤ p.length := by
  simp only [utf8DecodeRune]
  repeat' split
  all_goals simp_all [List.length_cons]

theorem runMatch_nil (re : PCREgexp) : re.runMatch [] = none := by
  simp [PCREgexp.runMatch]

/-- An engine's positive answer forces a non-empty remaining subject. -/
theorem runMatch_some_ne_nil {re : PCREgexp} {s : List Nat} {m : MatchRes s}
    (h : re.runMatch s = some m) : s ≠ [] := by
  intro hs
  subst hs
  rw [runMatch_nil] at h
  exact Option.noConfusion h

/-- C8: `Close` is idempotent and safe on a never-allocated value, and
after `Close` every query surfaces "no match": the match primitive returns
nil, so `MatchString` is false, `FindString` is empty and `Find` is nil. -/
theorem C8_close_idempotent_then_no_match :
    ∀ (re : PCREgexp) (s t : List Nat),
      re.Close.Close = re.Close ∧
      (∀ (p : List Nat) (f : Engine), (PCREgexp.mk p 0 0 f).Close = PCREgexp.mk p 0 0 f) ∧
      re.Close.runMatch s = none ∧
      re.Close.MatchString s = false ∧
      re.Close.FindString t = [] ∧
      re.Close.Find t = none := by
  intro re s t
  refine ⟨rfl, fun p f => rfl, ?_, ?_, ?_, ?_⟩ <;>
    simp [PCREgexp.Close, PCREgexp.runMatch, PCREgexp.MatchString, PCREgexp.FindString,
      PCREgexp.Find]

/-- C9: the `len(subject) == 0` guard of the match primitive makes every
query on the empty subject report "no match", for every engine — including
one (the empty pattern) whose raw engine would match the empty string. -/
theorem C9_empty_subject_always_misses :
    ∀ re : PCREgexp,
      re.runMatch [] = none ∧
      re.MatchString [] = false ∧
      re.FindString [] = [] ∧
      re.Find [] = none ∧
      (fEmptyRe.f []).isSome = true ∧
      fEmptyRe.MatchString [] = false := by
  intro re
  refine ⟨runMatch_nil re, ?_, ?_, ?_, rfl, ?_⟩ <;>
    simp [PCREgexp.MatchString, PCREgexp.FindString, PCREgexp.Find, runMatch_nil]

/-- C10: literal replacement and template replacement are the same
function — `ReplaceAllLiteral` delegates to `ReplaceAll` and
`ReplaceAllLiteralString` to `ReplaceAllString`, and the replacement is
inserted verbatim: replacing with the template-looking string `$1` inserts
the two bytes `$1`, not the capture that `Expand` would substitute. -/
theorem C10_replaceAllLiteral_is_replaceAll :
    ∀ (re : PCREgexp) (src repl : List Nat),
      re.ReplaceAllLiteral src repl = re.ReplaceAll src repl ∧
      re.ReplaceAllLiteralString src repl = re.ReplaceAllString src repl ∧
      gRe.ReplaceAllString [97, 98] [36, 49] = [36, 49] ∧
      gRe.Expand [] [36, 49] [97, 98] [0, 2, 0, 1] = some [97] := by
  intro re src repl
  exact ⟨rfl, rfl, by decide, by decide⟩

/-! ## C2: template expansion -/

theorem length_dropWhile_le (p : Nat → Bool) (l : List Nat) :
    (l.dropWhile p).length ≤ l.length := by
  induction l with
  | nil => simp [List.dropWhile]
  | cons a l ih =>
    simp only [List.dropWhile]
    cases p a
    · simp
    · simp only [List.length_cons]; omega

/-- Under well-formed offsets the expand loop agrees with the claim's
total description, step by step. -/
theorem expandGo_eq_spec (src : List Nat) (mtch : List Int) (hwf : OffsetsWF src mtch) :
    ∀ (fuel : Nat) (t : List Nat), t.length < fuel →
      expandGo src mtch fuel t = some (expandTemplateSpec src mtch fuel t) := by
  intro fuel
  induction fuel with
  | zero => intro t ht; omega
  | succ fuel ih =>
    intro t ht
    match t with
    | [] => rfl
    | [t0] => rfl
    | t0 :: t1 :: rest2 =>
      have hlen2 : rest2.length + 1 < fuel := by simpa using ht
      have hdw : ((t1 :: rest2).dropWhile isDigitByte).length < fuel := by
        have := length_dropWhile_le isDigitByte (t1 :: rest2)
        simp only [List.length_cons] at this
        omega
      have hcons : (t1 :: rest2).length < fuel := by simp; omega
      simp only [expandGo, expandTemplateSpec]
      by_cases h0 : t0 = 36
      · simp only [h0, if_true]
        by_cases h1 : t1 = 36
        · have hr2 : rest2.length < fuel := by omega
          simp [h1, ih rest2 hr2]
        · simp only [h1, if_false]
          by_cases hd : isDigitByte t1
          · simp only [hd, if_true]
            set g := digitsVal ((t1 :: rest2).takeWhile isDigitByte) with hg
            by_cases h2g : 2 * g < mtch.length
            · have hgl : g < mtch.length := by omega
              obtain ⟨hodd, ha, hab, hb⟩ := hwf g hgl h2g
              have hslice : sliceBytes src (intGet mtch (2 * g)) (intGet mtch (2 * g + 1)) =
                  some ((src.drop (intGet mtch (2 * g)).toNat).take
                    (intGet mtch (2 * g + 1) - intGet mtch (2 * g)).toNat) := by
                simp [sliceBytes, ha, le_trans hab hb |>.trans_eq rfl, hab, hb,
                  le_trans ha hab |> fun _ => hb]
              rw [if_pos h2g, if_pos hodd, hslice]
              rw [ih _ hdw]
              have hcond : 2 * g + 1 < mtch.length ∧ 0 ≤ intGet mtch (2 * g) ∧
                  0 ≤ intGet mtch (2 * g + 1) := ⟨hodd, ha, le_trans ha hab⟩
              simp [hcond, hodd, ha, le_trans ha hab]
            · rw [if_neg h2g, ih _ hdw]
              have : ¬ (2 * g + 1 < mtch.length ∧ 0 ≤ intGet mtch (2 * g) ∧
                  0 ≤ intGet mtch (2 * g + 1)) := by
                rintro ⟨hlt, -, -⟩; omega
              simp [this]
          · simp [hd, ih _ hcons]
      · simp [h0, ih _ hcons]

/-- C2 (counterexample): on the unset-group offset vector `[0, 1, -1, -1]`
(exactly what `FindSubmatchIndex` yields when group 1 does not participate)
the template `$1` makes `expand` slice with negative bounds — a runtime
panic (`none`) — where the claim says it substitutes nothing and the
claim's own total description returns the empty expansion. -/
theorem C2_expand_counterexample :
    wsRe.Expand [] [36, 49] [97, 98] [0, 1, -1, -1] = none ∧
    expandTemplateSpecTop [97, 98] [0, 1, -1, -1] [36, 49] = [] ∧
    wsRe.Expand [] [36, 49] [97, 98] [0, 1, -1, -1] ≠
      some (expandTemplateSpecTop [97, 98] [0, 1, -1, -1] [36, 49]) := by
  refine ⟨by decide, by decide, ?_⟩
  intro h
  rw [show wsRe.Expand [] [36, 49] [97, 98] [0, 1, -1, -1] = none from by decide] at h
  exact Option.noConfusion h

/-- C2 (amended): the claimed description of `expand` is correct whenever
the offset vector is well-formed — every pair addressed by an in-range
group index exists, is non-negative, ordered, and within the subject; for
malformed offsets (an unset group's `-1`, or a truncated vector) the code
panics instead of substituting nothing. The two concrete expansions of the
claim hold: with the offsets of `(a)(b)` against `ab`, `$1$2` expands to
`ab` and `$$1` to `$1`. -/
theorem C2_expand_behaviour :
    ∀ (re : PCREgexp) (dst template src : List Nat) (mtch : List Int),
      (OffsetsWF src mtch →
        re.Expand dst template src mtch =
          some (dst ++ expandTemplateSpecTop src mtch template)) ∧
      wsRe.Expand [] [36, 49, 36, 50] [97, 98] [0, 2, 0, 1, 1, 2] = some [97, 98] ∧
      wsRe.Expand [] [36, 36, 49] [97, 98] [0, 2, 0, 1, 1, 2] = some [36, 49] := by
  intro re dst template src mtch
  refine ⟨fun hwf => ?_, by decide, by decide⟩
  unfold PCREgexp.Expand expandTemplateSpecTop
  rw [expandGo_eq_spec src mtch hwf (template.length + 1) template (by omega)]
  rfl

theorem offsetsWF_ab : OffsetsWF [97, 98] [0, 2, 0, 1, 1, 2] := by
  intro g hg
  simp only [List.length_cons, List.length_nil] at hg
  interval_cases g <;> decide

/-- C2 (witness): the amended theorem applied at the offsets of `(a)(b)`
against `ab`, whose well-formedness is discharged concretely. -/
theorem C2_expand_behaviour_witness :
    OffsetsWF [97, 98] [0, 2, 0, 1, 1, 2] ∧
      wsRe.Expand [] [36, 49, 36, 50] [97, 98] [0, 2, 0, 1, 1, 2] =
        some ([] ++ expandTemplateSpecTop [97, 98] [0, 2, 0, 1, 1, 2] [36, 49, 36, 50]) :=
  ⟨offsetsWF_ab,
    (C2_expand_behaviour wsRe [] [36, 49, 36, 50] [97, 98] [0, 2, 0, 1, 1, 2]).1 offsetsWF_ab⟩

/-! ## C4: the zero-width-match step -/

theorem replaceAllStringGo_nil (re : PCREgexp) (repl : List Nat) :
    ∀ fuel, replaceAllStringGo re repl fuel [] = [] := by
  intro fuel
  cases fuel with
  | zero => rfl
  | succ fuel => simp [replaceAllStringGo, runMatch_nil]

/-- C4 (counterexample): with the empty pattern's engine and the subject
`0xFF 'a'` (an invalid UTF-8 byte followed by a letter), `FindAllString`
does not stop when decoding fails — it advances one byte past the
RuneError and finds a second empty match — whereas the claimed rule stops
the scan after the first match. -/
theorem C4_zero_width_counterexample :
    fEmptyRe.FindAllString [255, 97] (-1) = [[], []] ∧
    findAllStringClaim fEmptyRe [255, 97] (-1) = [[]] ∧
    fEmptyRe.FindAllString [255, 97] (-1) ≠ findAllStringClaim fEmptyRe [255, 97] (-1) := by
  exact ⟨by decide, by decide, by decide⟩

/-- C4 (amended): after a zero-width match, `FindAllString` stops exactly
when the match sits at the end of the remaining subject, and otherwise
always advances the cursor by the decoded codepoint's byte length — even
when decoding yields RuneError; `ReplaceAllString` additionally stops
(flushing the unscanned tail) when the decoded rune is RuneError or the
decoded size is 0, and otherwise advances the same way. -/
theorem C4_zero_width_step (re : PCREgexp) (remaining : List Nat) (n : Int) (fuel : Nat)
    (repl : List Nat) (m : MatchRes remaining)
    (hm : re.runMatch remaining = some m) (he : m.start = m.stop) (hn : n ≠ 0) :
    (m.stop ≥ remaining.length →
      findAllStringGo re (fuel + 1) remaining n = [[]]) ∧
    (m.stop < remaining.length →
      findAllStringGo re (fuel + 1) remaining n =
        [] :: findAllStringGo re fuel
          (remaining.drop (m.stop + (utf8DecodeRune (remaining.drop m.stop)).2)) (n - 1)) ∧
    (m.stop ≥ remaining.length →
      replaceAllStringGo re repl (fuel + 1) remaining = remaining.take m.start ++ repl) ∧
    (m.stop < remaining.length →
      ((utf8DecodeRune (remaining.drop m.stop)).1 = utf8RuneError ∨
        (utf8DecodeRune (remaining.drop m.stop)).2 = 0) →
      replaceAllStringGo re repl (fuel + 1) remaining =
        remaining.take m.start ++ repl ++ remaining.drop m.stop) ∧
    (m.stop < remaining.length →
      ¬ ((utf8DecodeRune (remaining.drop m.stop)).1 = utf8RuneError ∨
        (utf8DecodeRune (remaining.drop m.stop)).2 = 0) →
      replaceAllStringGo re repl (fuel + 1) remaining =
        remaining.take m.start ++ repl ++
          (remaining.drop m.stop).take (utf8DecodeRune (remaining.drop m.stop)).2 ++
          replaceAllStringGo re repl fuel
            (remaining.drop (m.stop + (utf8DecodeRune (remaining.drop m.stop)).2))) := by
  have hpiece : (remaining.drop m.start).take (m.stop - m.start) = [] := by
    rw [he, Nat.sub_self, List.take_zero]
  refine ⟨?_, ?_, ?_, ?_, ?_⟩
  · intro hend
    simp only [findAllStringGo, hm]
    rw [if_neg hn]
    simp only [if_pos he, if_pos hend, hpiece]
  · intro hend
    simp only [findAllStringGo, hm]
    rw [if_neg hn]
    simp only [if_pos he, if_neg (by omega : ¬ m.stop ≥ remaining.length), hpiece]
  · intro hend
    simp only [replaceAllStringGo, hm]
    simp only [if_pos he, if_neg (by omega : ¬ m.stop < remaining.length)]
    rw [replaceAllStringGo_nil, List.append_nil]
  · intro hend hfail
    simp only [replaceAllStringGo, hm]
    simp only [if_pos he, if_pos hend, if_pos hfail]
  · intro hend hfail
    simp only [replaceAllStringGo, hm]
    simp only [if_pos he, if_pos hend, if_neg hfail, List.append_assoc]

/-- C4 (witness): the advance step at a concrete empty match inside `"a"`. -/
theorem C4_zero_width_step_witness :
    fEmptyRe.runMatch [97] = some ⟨0, 0, [], Nat.le_refl 0, Nat.zero_le 1⟩ ∧
    findAllStringGo fEmptyRe 2 [97] (-1) =
      [] :: findAllStringGo fEmptyRe 1
        (List.drop (0 + (utf8DecodeRune (List.drop 0 [97])).2) [97]) (-1 - 1) := by
  refine ⟨rfl, ?_⟩
  exact (C4_zero_width_step fEmptyRe [97] (-1) 1 [120]
    ⟨0, 0, [], Nat.le_refl 0, Nat.zero_le 1⟩ rfl rfl (by decide)).2.1 (by decide)

/-! ## C6: limit semantics of the find-all loop -/

theorem findAllStringGo_zero (re : PCREgexp) :
    ∀ (fuel : Nat) (remaining : List Nat), findAllStringGo re fuel remaining 0 = [] := by
  intro fuel remaining
  cases fuel with
  | zero => rfl
  | succ fuel => simp [findAllStringGo]

/-- Any two negative limits drive the find-all loop identically. -/
theorem findAllStringGo_neg (re : PCREgexp) :
    ∀ (fuel : Nat) (remaining : List Nat) (n m : Int), n < 0 → m < 0 →
      findAllStringGo re fuel remaining n = findAllStringGo re fuel remaining m := by
  intro fuel
  induction fuel with
  | zero => intros; rfl
  | succ fuel ih =>
    intro remaining n m hn hm
    simp only [findAllStringGo]
    rw [if_neg (by omega), if_neg (by omega)]
    cases h : re.runMatch remaining with
    | none => rfl
    | some mm =>
      simp only
      by_cases he : mm.start = mm.stop
      · rw [if_pos he, if_pos he]
        by_cases hend : mm.stop ≥ remaining.length
        · rw [if_pos hend, if_pos hend]
        · rw [if_neg hend, if_neg hend, ih _ (n - 1) (m - 1) (by omega) (by omega)]
      · rw [if_neg he, if_neg he, ih _ (n - 1) (m - 1) (by omega) (by omega)]

/-- With a positive limit the find-all loop emits exactly the prefix of
the unbounded scan. -/
theorem findAllStringGo_take (re : PCREgexp) :
    ∀ (fuel : Nat) (remaining : List Nat) (n : Int), 0 < n →
      findAllStringGo re fuel remaining n =
        (findAllStringGo re fuel remaining (-1)).take n.toNat := by
  intro fuel
  induction fuel with
  | zero => intros; simp [findAllStringGo]
  | succ fuel ih =>
    intro remaining n hn
    have htn : 1 ≤ n.toNat := by omega
    simp only [findAllStringGo]
    rw [if_neg (by omega), if_neg (by decide)]
    cases h : re.runMatch remaining with
    | none => simp
    | some mm =>
      simp only
      have hstep : ∀ rem2 : List Nat,
          findAllStringGo re fuel rem2 (n - 1) =
            (findAllStringGo re fuel rem2 (-1 - 1)).take (n.toNat - 1) := by
        intro rem2
        rcases lt_trichotomy (n - 1) 0 with hlt | heq | hgt
        · have h1 : n = 1 := by omega
          have : n.toNat - 1 = 0 := by omega
          rw [this, List.take_zero, h1]
          show findAllStringGo re fuel rem2 0 = []
          exact findAllStringGo_zero re fuel rem2
        · have : n.toNat - 1 = 0 := by omega
          rw [this, List.take_zero, heq]
          exact findAllStringGo_zero re fuel rem2
        · rw [ih rem2 (n - 1) hgt, findAllStringGo_neg re fuel rem2 (-1) (-1 - 1)
            (by omega) (by omega)]
          congr 1
          omega
      by_cases he : mm.start = mm.stop
      · rw [if_pos he, if_pos he]
        by_cases hend : mm.stop ≥ remaining.length
        · rw [if_pos hend, if_pos hend]
          rw [List.take_cons (by omega), List.take_nil]
        · rw [if_neg hend, if_neg hend]
          rw [List.take_cons (by omega), hstep]
      · rw [if_neg he, if_neg he]
        rw [List.take_cons (by omega), hstep]

/-- C6: limit semantics of `FindAllString`: a 0 limit yields the empty
result, any negative limit yields the full scan, and a positive limit `n`
yields exactly the first `n` matches of the full scan (hence at most `n`). -/
theorem C6_findAll_limit (re : PCREgexp) (s : List Nat) (n : Int) :
    re.FindAllString s 0 = [] ∧
    (n < 0 → re.FindAllString s n = re.FindAllString s (-1)) ∧
    (0 < n → re.FindAllString s n = (re.FindAllString s (-1)).take n.toNat ∧
      (re.FindAllString s n).length ≤ n.toNat) := by
  refine ⟨findAllStringGo_zero re _ s, ?_, ?_⟩
  · intro hn
    exact findAllStringGo_neg re _ s n (-1) hn (by decide)
  · intro hn
    have h := findAllStringGo_take re (s.length + 1) s n hn
    exact ⟨h, by rw [PCREgexp.FindAllString, h]; exact (List.length_take _ _).le.trans (by simp)⟩

/-- C6 (witness): the limit semantics at `\s+` on `"a b c"` with limit 1. -/
theorem C6_findAll_limit_witness :
    (0 : Int) < 1 ∧
    wsRe.FindAllString [97, 32, 98, 32, 99] 1 =
      (wsRe.FindAllString [97, 32, 98, 32, 99] (-1)).take (1 : Int).toNat :=
  ⟨by decide, ((C6_findAll_limit wsRe [97, 32, 98, 32, 99] 1).2.2 (by decide)).1⟩

/-! ## C5: offset translation back to the original subject -/

/-- The re-slicing scan with offset translation computes exactly the
absolute-cursor scan over the original subject. -/
theorem findAllStringIndexGo_eq_abs (re : PCREgexp) (s : List Nat) :
    ∀ (fuel : Nat) (pos : Nat) (n : Int),
      findAllStringIndexGo re fuel (s.drop pos) pos n = findAllIndexAbsGo re s fuel pos n := by
  intro fuel
  induction fuel with
  | zero => intros; rfl
  | succ fuel ih =>
    intro pos n
    simp only [findAllStringIndexGo, findAllIndexAbsGo]
    by_cases hn : n = 0
    · rw [if_pos hn, if_pos hn]
    rw [if_neg hn, if_neg hn]
    cases h : re.runMatch (s.drop pos) with
    | none => rfl
    | some mm =>
      simp only
      by_cases he : mm.start = mm.stop
      · rw [if_pos he, if_pos he]
        by_cases hend : mm.stop ≥ (s.drop pos).length
        · rw [if_pos hend, if_pos hend]
        · rw [if_neg hend, if_neg hend]
          simp only [List.drop_drop]
          rw [show pos + (mm.stop + (utf8DecodeRune (List.drop (pos + mm.stop) s)).2) =
            pos + mm.stop + (utf8DecodeRune (List.drop (pos + mm.stop) s)).2 from by omega]
          rw [ih (pos + mm.stop + (utf8DecodeRune (List.drop (pos + mm.stop) s)).2) (n - 1)]
      · rw [if_neg he, if_neg he]
        simp only [List.drop_drop]
        rw [ih (pos + mm.stop) (n - 1)]

/-- Likewise for the full-slot-vector scan. -/
theorem findAllSubmatchIndexGo_eq_abs (re : PCREgexp) (s : List Nat) :
    ∀ (fuel : Nat) (pos : Nat) (n : Int),
      findAllSubmatchIndexGo re fuel (s.drop pos) pos n =
        findAllSubmatchIndexAbsGo re s fuel pos n := by
  intro fuel
  induction fuel with
  | zero => intros; rfl
  | succ fuel ih =>
    intro pos n
    simp only [findAllSubmatchIndexGo, findAllSubmatchIndexAbsGo]
    by_cases hn : n = 0
    · rw [if_pos hn, if_pos hn]
    rw [if_neg hn, if_neg hn]
    cases h : re.runMatch (s.drop pos) with
    | none => rfl
    | some mm =>
      simp only
      by_cases he : mm.start = mm.stop
      · rw [if_pos he, if_pos he]
        by_cases hend : mm.stop ≥ (s.drop pos).length
        · rw [if_pos hend, if_pos hend]
        · rw [if_neg hend, if_neg hend]
          simp only [List.drop_drop]
          rw [show pos + (mm.stop + (utf8DecodeRune (List.drop (pos + mm.stop) s)).2) =
            pos + mm.stop + (utf8DecodeRune (List.drop (pos + mm.stop) s)).2 from by omega]
          rw [ih (pos + mm.stop + (utf8DecodeRune (List.drop (pos + mm.stop) s)).2) (n - 1)]
      · rw [if_neg he, if_neg he]
        simp only [List.drop_drop]
        rw [ih (pos + mm.stop) (n - 1)]

/-- Slicing the original subject at the translated spans recovers exactly
the matched texts that `FindAllString` emits. -/
theorem findAllIndexGo_extract (re : PCREgexp) (s : List Nat) :
    ∀ (fuel : Nat) (pos : Nat) (n : Int),
      (findAllStringIndexGo re fuel (s.drop pos) pos n).map
          (fun q => (s.drop q.1).take (q.2 - q.1)) =
        findAllStringGo re fuel (s.drop pos) n := by
  intro fuel
  induction fuel with
  | zero => intros; rfl
  | succ fuel ih =>
    intro pos n
    simp only [findAllStringIndexGo, findAllStringGo]
    by_cases hn : n = 0
    · rw [if_pos hn, if_pos hn]; rfl
    rw [if_neg hn, if_neg hn]
    cases h : re.runMatch (s.drop pos) with
    | none => rfl
    | some mm =>
      simp only
      by_cases he : mm.start = mm.stop
      · rw [if_pos he, if_pos he]
        by_cases hend : mm.stop ≥ (s.drop pos).length
        · rw [if_pos hend, if_pos hend]
          simp only [List.map_cons, List.map_nil, List.drop_drop]
          rw [show mm.stop + pos - (mm.start + pos) = mm.stop - mm.start from by omega,
            show mm.start + pos = pos + mm.start from by omega]
        · rw [if_neg hend, if_neg hend]
          simp only [List.map_cons, List.drop_drop]
          rw [show mm.stop + pos - (mm.start + pos) = mm.stop - mm.start from by omega,
            show mm.start + pos = pos + mm.start from by omega]
          rw [show pos + (mm.stop + (utf8DecodeRune (List.drop (pos + mm.stop) s)).2) =
            pos + mm.stop + (utf8DecodeRune (List.drop (pos + mm.stop) s)).2 from by omega]
          rw [ih (pos + mm.stop + (utf8DecodeRune (List.drop (pos + mm.stop) s)).2) (n - 1)]
      · rw [if_neg he, if_neg he]
        simp only [List.map_cons, List.drop_drop]
        rw [show mm.stop + pos - (mm.start + pos) = mm.stop - mm.start from by omega,
          show mm.start + pos = pos + mm.start from by omega]
        rw [ih (pos + mm.stop) (n - 1)]

/-- C5: every index-reporting find-all operation reports offsets in the
original subject's coordinate space: the re-slicing loops with offset
translation (`FindAllStringIndex`/`FindAllIndex` and
`FindAllStringSubmatchIndex`/`FindAllSubmatchIndex`) coincide with
absolute-cursor reference scans that never leave the original coordinate
space, and slicing the original subject at the reported spans recovers
exactly the matched texts of `FindAllString`. -/
theorem C5_offset_translation (re : PCREgexp) (s : List Nat) (n : Int) :
    re.FindAllStringIndex s n = findAllIndexAbs re s n ∧
    re.FindAllStringSubmatchIndex s n = findAllSubmatchIndexAbs re s n ∧
    (re.FindAllStringIndex s n).map (fun q => (s.drop q.1).take (q.2 - q.1)) =
      re.FindAllString s n := by
  refine ⟨?_, ?_, ?_⟩
  · have h := findAllStringIndexGo_eq_abs re s (s.length + 1) 0 n
    simpa [PCREgexp.FindAllStringIndex, findAllIndexAbs] using h
  · have h := findAllSubmatchIndexGo_eq_abs re s (s.length + 1) 0 n
    simpa [PCREgexp.FindAllStringSubmatchIndex, findAllSubmatchIndexAbs] using h
  · have h := findAllIndexGo_extract re s (s.length + 1) 0 n
    simpa [PCREgexp.FindAllStringIndex, PCREgexp.FindAllString] using h

/-! ## C3: the global-scan invariant -/

theorem utf8_size_pos_of_ne_nil (l : List Nat) (h : l ≠ []) :
    1 ≤ (utf8DecodeRune l).2 := by
  cases l with
  | nil => exact absurd rfl h
  | cons b bs => exact utf8_size_pos b bs

/-- Ordering between two spans of one scan: the earlier span ends before
the later begins, strictly so when the earlier span is empty. -/
def spanOrder (x y : Nat × Nat) : Prop := x.2 ≤ y.1 ∧ (x.1 = x.2 → x.2 < y.1)

/-- Scan invariant of the index-reporting loop: every span is well-formed,
starts at or after the scan cursor, ends within the scanned region, and
the emitted list is pairwise ordered and non-overlapping. -/
theorem faIdxGo_inv (re : PCREgexp) :
    ∀ (fuel : Nat) (remaining : List Nat) (offset : Nat) (n : Int),
      (∀ q ∈ findAllStringIndexGo re fuel remaining offset n,
        offset ≤ q.1 ∧ q.1 ≤ q.2 ∧ q.2 ≤ offset + remaining.length) ∧
      (findAllStringIndexGo re fuel remaining offset n).Pairwise spanOrder := by
  intro fuel
  induction fuel with
  | zero => intro remaining offset n; exact ⟨fun q hq => absurd hq (List.not_mem_nil q), List.Pairwise.nil⟩
  | succ fuel ih =>
    intro remaining offset n
    simp only [findAllStringIndexGo]
    by_cases hn : n = 0
    · rw [if_pos hn]
      exact ⟨fun q hq => absurd hq (List.not_mem_nil q), List.Pairwise.nil⟩
    rw [if_neg hn]
    cases h : re.runMatch remaining with
    | none => exact ⟨fun q hq => absurd hq (List.not_mem_nil q), List.Pairwise.nil⟩
    | some mm =>
      simp only
      have hms := mm.h_le
      have hmstop := mm.h_stop
      by_cases he : mm.start = mm.stop
      · rw [if_pos he]
        by_cases hend : mm.stop ≥ remaining.length
        · rw [if_pos hend]
          refine ⟨?_, List.pairwise_singleton _ _⟩
          intro q hq
          rw [List.mem_singleton] at hq
          subst hq
          exact ⟨by omega, by omega, by omega⟩
        · rw [if_neg hend]
          have hsz : 1 ≤ (utf8DecodeRune (remaining.drop mm.stop)).2 := by
            apply utf8_size_pos_of_ne_nil
            intro hd
            have := congrArg List.length hd
            simp only [List.length_drop, List.length_nil] at this
            omega
          have hszle : (utf8DecodeRune (remaining.drop mm.stop)).2 ≤
              remaining.length - mm.stop := by
            have := utf8_size_le (remaining.drop mm.stop)
            simpa [List.length_drop] using this
          obtain ⟨ihb, ihp⟩ := ih (remaining.drop
            (mm.stop + (utf8DecodeRune (remaining.drop mm.stop)).2))
            (offset + mm.stop + (utf8DecodeRune (remaining.drop mm.stop)).2) (n - 1)
          refine ⟨?_, ?_⟩
          · intro q hq
            rcases List.mem_cons.mp hq with hq | hq
            · subst hq; exact ⟨by omega, by omega, by omega⟩
            · obtain ⟨h1, h2, h3⟩ := ihb q hq
              simp only [List.length_drop] at h3
              exact ⟨by omega, h2, by omega⟩
          · refine List.pairwise_cons.mpr ⟨?_, ihp⟩
            intro q hq
            obtain ⟨h1, h2, h3⟩ := ihb q hq
            exact ⟨by omega, fun _ => by omega⟩
      · rw [if_neg he]
        have hstop1 : 1 ≤ mm.stop := by omega
        obtain ⟨ihb, ihp⟩ := ih (remaining.drop mm.stop) (offset + mm.stop) (n - 1)
        refine ⟨?_, ?_⟩
        · intro q hq
          rcases List.mem_cons.mp hq with hq | hq
          · subst hq; exact ⟨by omega, by omega, by omega⟩
          · obtain ⟨h1, h2, h3⟩ := ihb q hq
            simp only [List.length_drop] at h3
            exact ⟨by omega, h2, by omega⟩
        · refine List.pairwise_cons.mpr ⟨?_, ihp⟩
          intro q hq
          obtain ⟨h1, h2, h3⟩ := ihb q hq
          refine ⟨by omega, fun hc => ?_⟩
          exfalso
          simp only at hc
          omega

/-- The index scan is fuel-stable once the fuel dominates the remaining
length: the loop terminates within that bound. -/
theorem faIdxGo_stable (re : PCREgexp) :
    ∀ (fuel1 fuel2 : Nat) (remaining : List Nat) (offset : Nat) (n : Int),
      remaining.length < fuel1 → remaining.length < fuel2 →
      findAllStringIndexGo re fuel1 remaining offset n =
        findAllStringIndexGo re fuel2 remaining offset n := by
  intro fuel1
  induction fuel1 with
  | zero => intro fuel2 remaining offset n h1 h2; omega
  | succ fuel1 ih =>
    intro fuel2 remaining offset n h1 h2
    cases fuel2 with
    | zero => omega
    | succ fuel2 =>
      simp only [findAllStringIndexGo]
      by_cases hn : n = 0
      · rw [if_pos hn, if_pos hn]
      rw [if_neg hn, if_neg hn]
      cases h : re.runMatch remaining with
      | none => rfl
      | some mm =>
        have hne : remaining ≠ [] := runMatch_some_ne_nil h
        have hlenpos : 0 < remaining.length := List.length_pos.mpr hne
        have hmstop := mm.h_stop
        have hms := mm.h_le
        simp only
        by_cases he : mm.start = mm.stop
        · rw [if_pos he, if_pos he]
          by_cases hend : mm.stop ≥ remaining.length
          · rw [if_pos hend, if_pos hend]
          · rw [if_neg hend, if_neg hend]
            have hsz : 1 ≤ (utf8DecodeRune (remaining.drop mm.stop)).2 := by
              apply utf8_size_pos_of_ne_nil
              intro hd
              have := congrArg List.length hd
              simp only [List.length_drop, List.length_nil] at this
              omega
            rw [ih fuel2 _ _ _
              (by simp only [List.length_drop]; omega)
              (by simp only [List.length_drop]; omega)]
        · rw [if_neg he, if_neg he]
          rw [ih fuel2 _ _ _
            (by simp only [List.length_drop]; omega)
            (by simp only [List.length_drop]; omega)]

/-- The replace scan is fuel-stable once the fuel dominates the remaining
length. -/
theorem replaceGo_stable (re : PCREgexp) (repl : List Nat) :
    ∀ (fuel1 fuel2 : Nat) (remaining : List Nat),
      remaining.length < fuel1 → remaining.length < fuel2 →
      replaceAllStringGo re repl fuel1 remaining =
        replaceAllStringGo re repl fuel2 remaining := by
  intro fuel1
  induction fuel1 with
  | zero => intro fuel2 remaining h1 h2; omega
  | succ fuel1 ih =>
    intro fuel2 remaining h1 h2
    cases fuel2 with
    | zero => omega
    | succ fuel2 =>
      simp only [replaceAllStringGo]
      cases h : re.runMatch remaining with
      | none => rfl
      | some mm =>
        have hne : remaining ≠ [] := runMatch_some_ne_nil h
        have hlenpos : 0 < remaining.length := List.length_pos.mpr hne
        have hmstop := mm.h_stop
        have hms := mm.h_le
        simp only
        by_cases he : mm.start = mm.stop
        · rw [if_pos he, if_pos he]
          by_cases hend : mm.stop < remaining.length
          · rw [if_pos hend, if_pos hend]
            have hsz : 1 ≤ (utf8DecodeRune (remaining.drop mm.stop)).2 := by
              apply utf8_size_pos_of_ne_nil
              intro hd
              have := congrArg List.length hd
              simp only [List.length_drop, List.length_nil] at this
              omega
            by_cases hfail : (utf8DecodeRune (remaining.drop mm.stop)).1 = utf8RuneError ∨
                (utf8DecodeRune (remaining.drop mm.stop)).2 = 0
            · rw [if_pos hfail, if_pos hfail]
            · rw [if_neg hfail, if_neg hfail]
              rw [ih fuel2 _
                (by simp only [List.length_drop]; omega)
                (by simp only [List.length_drop]; omega)]
          · rw [if_neg hend, if_neg hend]
            rw [ih fuel2 [] (by simp; omega) (by simp; omega)]
        · rw [if_neg he, if_neg he]
          rw [ih fuel2 _
            (by simp only [List.length_drop]; omega)
            (by simp only [List.length_drop]; omega)]

/-- Termination of a `Split` call, expressed through the fuel model: some
fuel makes the loop finish. -/
def SplitTerminates (re : PCREgexp) (s : List Nat) (n : Int) : Prop :=
  ∃ fuel, (splitGo re s n fuel 0 []).isSome = true

/-- With a zero-width separator match the `Split` loop repeats its state
forever: no fuel suffices. -/
theorem splitGo_empty_diverges :
    ∀ (fuel : Nat) (parts : List (List Nat)),
      splitGo fEmptyRe [97] (-1) fuel 0 parts = none := by
  intro fuel
  induction fuel with
  | zero => intro parts; rfl
  | succ fuel ih =>
    intro parts
    simp only [splitGo]
    rw [show fEmptyRe.runMatch (List.drop 0 [97]) =
      some ⟨0, 0, [], Nat.le_refl 0, Nat.zero_le 1⟩ from rfl]
    simp only
    rw [if_neg (fun hc => absurd hc.1 (by decide))]
    exact ih _

/-- C3 (counterexample): `Split` violates the claimed scan invariant: it
performs no empty-match advance at all, so with the empty pattern's engine
(a zero-width separator) on the one-byte subject `"a"` the scan never
terminates. -/
theorem C3_split_counterexample : ¬ SplitTerminates fEmptyRe [97] (-1) := by
  rintro ⟨fuel, hfuel⟩
  rw [splitGo_empty_diverges fuel []] at hfuel
  exact Bool.noConfusion hfuel

/-- C3 (amended): the scan invariant holds for the find-all and replace
scans — spans are well-formed, within the subject, pairwise ordered and
non-overlapping (strictly after an empty match), and both loops terminate
within a fuel bound of the subject length — but not for `Split`, which
lacks the empty-match advance (see the counterexample). -/
theorem C3_scan_invariant (re : PCREgexp) (s : List Nat) (n : Int) :
    (∀ q ∈ re.FindAllStringIndex s n, q.1 ≤ q.2 ∧ q.2 ≤ s.length) ∧
    (re.FindAllStringIndex s n).Pairwise spanOrder ∧
    (∀ extra, findAllStringIndexGo re (s.length + 1 + extra) s 0 n =
      re.FindAllStringIndex s n) ∧
    (∀ repl extra, replaceAllStringGo re repl (s.length + 1 + extra) s =
      replaceAllStringGo re repl (s.length + 1) s) := by
  obtain ⟨hb, hp⟩ := faIdxGo_inv re (s.length + 1) s 0 n
  refine ⟨?_, hp, ?_, ?_⟩
  · intro q hq
    obtain ⟨h1, h2, h3⟩ := hb q hq
    exact ⟨h2, by omega⟩
  · intro extra
    exact faIdxGo_stable re (s.length + 1 + extra) (s.length + 1) s 0 n (by omega) (by omega)
  · intro repl extra
    exact replaceGo_stable re repl (s.length + 1 + extra) (s.length + 1) s (by omega) (by omega)

/-- C3 (witness): the invariant at the concrete scan of `\s+` over `"a b"`,
whose single span (1, 2) is checked to be a member concretely. -/
theorem C3_scan_invariant_witness :
    (1 : Nat) ≤ 2 ∧ (2 : Nat) ≤ ([97, 32, 98] : List Nat).length :=
  (C3_scan_invariant wsRe [97, 32, 98] (-1)).1 (1, 2) (by decide)

/-! ## C7: Split semantics -/

/-- C7: the separator-dropping behaviour of `Split` holds on the claim's
scenarios — splitting `"foo bar baz"` on `\s+` unbounded yields the three
words, the empty subject yields one empty element, a subject without a
separator yields itself, and limit 0 yields the empty sequence — but the
positive-limit rule fails at limit 1: the `len(parts) == n-1` cap is
checked only after a part has been appended, so it can never fire for
n = 1, and `Split("a b", 1)` returns two substrings where the claim (and
the method's own documentation, "at most n substrings") requires one. -/
theorem C7_split_limit_bug :
    (∀ (re : PCREgexp) (s : List Nat), re.Split s 0 = some []) ∧
    wsRe.Split [102, 111, 111, 32, 98, 97, 114, 32, 98, 97, 122] (-1) =
      some [[102, 111, 111], [98, 97, 114], [98, 97, 122]] ∧
    wsRe.Split [] (-1) = some [[]] ∧
    wsRe.Split [102, 111, 111] (-1) = some [[102, 111, 111]] ∧
    wsRe.Split [97, 32, 98] 1 = some [[97], [98]] ∧
    wsRe.Split [97, 32, 98] 1 ≠ some [[97, 32, 98]] := by
  refine ⟨fun re s => by simp [PCREgexp.Split], by decide, by decide, by decide, by decide,
    by decide⟩

/-! ## C1: the classifier -/

theorem startsWithB_iff : ∀ (s pat : List Nat), startsWithB s pat = true ↔ ∃ v, s = pat ++ v := by
  intro s pat
  induction pat generalizing s with
  | nil => simp [startsWithB]
  | cons d t ih =>
    cases s with
    | nil =>
      simp only [startsWithB]
      constructor
      · intro hc; exact absurd hc (by simp)
      · rintro ⟨v, hv⟩; exact absurd hv (by simp)
    | cons c s2 =>
      simp only [startsWithB]
      by_cases hcd : c = d
      · rw [if_pos hcd, ih s2]
        constructor
        · rintro ⟨v, rfl⟩; exact ⟨v, by rw [hcd]; rfl⟩
        · rintro ⟨v, hv⟩
          injection hv with h1 h2
          exact ⟨v, h2⟩
      · rw [if_neg hcd]
        constructor
        · intro hc; exact absurd hc (by simp)
        · rintro ⟨v, hv⟩
          injection hv with h1 h2
          exact absurd h1 hcd

theorem escAfter_nil (e : Bool) : escAfter [] e = e := rfl

theorem escAfter_cons (c : Nat) (u : List Nat) (e : Bool) :
    escAfter (c :: u) e = escAfter u (escStep e c) := rfl

theorem escAfter_append (u v : List Nat) (e : Bool) :
    escAfter (u ++ v) e = escAfter v (escAfter u e) := by
  simp [escAfter, List.foldl_append]

theorem trailingBS_nil : trailingBS [] = 0 := rfl

theorem trailingBS_append_single (u : List Nat) (c : Nat) :
    trailingBS (u ++ [c]) = if c = 92 then trailingBS u + 1 else 0 := by
  have hrev : (u ++ [c]).reverse = c :: u.reverse := by simp
  by_cases h : c = 92
  · subst h
    simp only [trailingBS, hrev, if_pos rfl]
    rw [List.takeWhile_cons_of_pos (by simp)]
    simp
  · simp only [trailingBS, hrev, if_neg h]
    rw [List.takeWhile_cons_of_neg (by simp [h])]
    simp

/-- The escaped state reached by the scan equals the parity of the run of
backslashes immediately preceding the position: this connects the loop
state to the claim's notion of an "unescaped" position. -/
theorem escAfter_false_iff (u : List Nat) :
    (escAfter u false = false ↔ trailingBS u % 2 = 0) := by
  induction u using List.reverseRecOn with
  | nil => simp [escAfter_nil, trailingBS_nil]
  | append_singleton u c ih =>
    rw [escAfter_append, trailingBS_append_single]
    by_cases h : c = 92
    · subst h
      rw [if_pos rfl]
      have hstep : escAfter [92] (escAfter u false) = !(escAfter u false) := rfl
      rw [hstep]
      cases he : escAfter u false
      · rw [he] at ih
        simp only [Bool.not_false]
        have heven : trailingBS u % 2 = 0 := ih.mp rfl
        constructor
        · intro hc; exact absurd hc (by simp)
        · intro hc; omega
      · rw [he] at ih
        simp only [Bool.not_true]
        have hodd : ¬ trailingBS u % 2 = 0 := fun hx => Bool.noConfusion (ih.mpr hx)
        constructor
        · intro _; omega
        · intro _; trivial
    · rw [if_neg h]
      have hstep : escAfter [c] (escAfter u false) = false := by
        simp [escAfter, escStep, h]
      rw [hstep]
      simp

/-- The escape-aware substring scan finds the needle exactly when it
occurs at a position whose escaped state is clear (for needles that are
non-empty and do not begin with a backslash). -/
theorem containsAux_iff (needle : List Nat) (hne : needle ≠ [])
    (hh : needle.head? ≠ some 92) :
    ∀ (s : List Nat) (esc : Bool),
      containsAux needle s esc = true ↔
        ∃ u v, s = u ++ needle ++ v ∧ escAfter u esc = false := by
  intro s
  induction s with
  | nil =>
    intro esc
    simp only [containsAux]
    constructor
    · intro hc; exact absurd hc (by simp)
    · rintro ⟨u, v, huv, -⟩
      exfalso
      have hl := congrArg List.length huv
      simp only [List.length_nil, List.length_append] at hl
      have : 1 ≤ needle.length := by
        cases needle with
        | nil => exact absurd rfl hne
        | cons a t => simp
      omega
  | cons c rest ih =>
    intro esc
    simp only [containsAux]
    by_cases hlen : rest.length + 1 < needle.length
    · rw [if_pos hlen]
      constructor
      · intro hc; exact absurd hc (by simp)
      · rintro ⟨u, v, huv, -⟩
        exfalso
        have hl := congrArg List.length huv
        simp only [List.length_cons, List.length_append] at hl
        omega
    rw [if_neg hlen]
    by_cases hc92 : c = 92
    · rw [if_pos hc92, ih (!esc)]
      constructor
      · rintro ⟨u, v, huv, hesc⟩
        refine ⟨c :: u, v, by rw [huv]; simp, ?_⟩
        rw [escAfter_cons]
        simpa [escStep, hc92] using hesc
      · rintro ⟨u, v, huv, hesc⟩
        cases u with
        | nil =>
          exfalso
          simp only [List.nil_append] at huv
          apply hh
          cases needle with
          | nil => exact absurd rfl hne
          | cons a t =>
            injection huv with h1 h2
            simp only [List.head?]
            rw [← h1, hc92]
        | cons c2 u2 =>
          injection huv with h1 h2
          refine ⟨u2, v, h2, ?_⟩
          rw [escAfter_cons] at hesc
          simpa [escStep, ← h1, hc92] using hesc
    · rw [if_neg hc92]
      by_cases hmatch : esc = false ∧ startsWithB (c :: rest) needle = true
      · rw [if_pos hmatch]
        constructor
        · intro _
          obtain ⟨v, hv⟩ := (startsWithB_iff _ _).mp hmatch.2
          exact ⟨[], v, by simpa using hv, by simpa [escAfter_nil] using hmatch.1⟩
        · intro _; rfl
      · rw [if_neg hmatch, ih false]
        constructor
        · rintro ⟨u, v, huv, hesc⟩
          refine ⟨c :: u, v, by rw [huv]; simp, ?_⟩
          rw [escAfter_cons]
          simpa [escStep, hc92] using hesc
        · rintro ⟨u, v, huv, hesc⟩
          cases u with
          | nil =>
            exfalso
            simp only [List.nil_append] at huv
            apply hmatch
            have hesc0 : esc = false := by simpa [escAfter_nil] using hesc
            exact ⟨hesc0, (startsWithB_iff _ _).mpr ⟨v, by rw [huv]⟩⟩
          | cons c2 u2 =>
            injection huv with h1 h2
            refine ⟨u2, v, h2, ?_⟩
            rw [escAfter_cons] at hesc
            simpa [escStep, ← h1, hc92] using hesc

/-- An unescaped `(` whose suffix is a `?:`/`?P` group shape is skipped by
the counting loop. -/
theorem countGroupsAux_skip (rest : List Nat) (hs : SkipGroupForm rest) :
    countGroupsAux (40 :: rest) false = countGroupsAux rest false := by
  obtain ⟨d, w, rfl, hd⟩ := hs
  simp [countGroupsAux, hd]

/-- An unescaped `(` whose suffix is not a `?:`/`?P` group shape is
counted. -/
theorem countGroupsAux_count (rest : List Nat) (hs : ¬ SkipGroupForm rest) :
    countGroupsAux (40 :: rest) false = countGroupsAux rest false + 1 := by
  match rest with
  | [] => simp [countGroupsAux]
  | [r1] => simp [countGroupsAux]
  | r1 :: r2 :: w =>
    have hd : ¬ (r1 = 63 ∧ (r2 = 58 ∨ r2 = 80)) := by
      rintro ⟨h1, h2⟩
      exact hs ⟨r2, w, by rw [h1], h2⟩
    simp [countGroupsAux, hd]

/-- The group-counting loop finds a capturing group exactly when an
unescaped `(` not followed by `?:`/`?P` occurs. -/
theorem countGroups_pos_iff :
    ∀ (s : List Nat) (esc : Bool),
      (0 < countGroupsAux s esc ↔
        ∃ u v, s = u ++ 40 :: v ∧ escAfter u esc = false ∧ ¬ SkipGroupForm v) := by
  intro s
  induction s with
  | nil =>
    intro esc
    simp only [countGroupsAux]
    constructor
    · omega
    · rintro ⟨u, v, huv, -, -⟩
      exfalso
      have hl := congrArg List.length huv
      simp only [List.length_nil, List.length_append, List.length_cons] at hl
      omega
  | cons c rest ih =>
    intro esc
    by_cases hc92 : c = 92
    · subst hc92
      rw [show countGroupsAux (92 :: rest) esc = countGroupsAux rest (!esc) from by
        simp [countGroupsAux]]
      rw [ih (!esc)]
      constructor
      · rintro ⟨u, v, huv, hesc, hsk⟩
        refine ⟨92 :: u, v, by rw [huv]; simp, ?_, hsk⟩
        rw [escAfter_cons]
        simpa [escStep] using hesc
      · rintro ⟨u, v, huv, hesc, hsk⟩
        cases u with
        | nil =>
          exfalso
          simp only [List.nil_append] at huv
          injection huv with h1 h2
          omega
        | cons c2 u2 =>
          injection huv with h1 h2
          refine ⟨u2, v, h2, ?_, hsk⟩
          rw [escAfter_cons] at hesc
          simpa [escStep, ← h1] using hesc
    · by_cases hcap : esc = false ∧ c = 40
      · obtain ⟨hesc0, hc40⟩ := hcap
        subst hesc0
        subst hc40
        by_cases hskip : SkipGroupForm rest
        · rw [countGroupsAux_skip rest hskip, ih false]
          constructor
          · rintro ⟨u, v, huv, hesc, hsk⟩
            refine ⟨40 :: u, v, by rw [huv]; simp, ?_, hsk⟩
            rw [escAfter_cons]
            simpa [escStep] using hesc
          · rintro ⟨u, v, huv, hesc, hsk⟩
            cases u with
            | nil =>
              exfalso
              simp only [List.nil_append] at huv
              injection huv with h1 h2
              exact hsk (h2 ▸ hskip)
            | cons c2 u2 =>
              injection huv with h1 h2
              refine ⟨u2, v, h2, ?_, hsk⟩
              rw [escAfter_cons] at hesc
              simpa [escStep, ← h1, hc92] using hesc
        · rw [countGroupsAux_count rest hskip]
          constructor
          · intro _
            exact ⟨[], rest, rfl, rfl, hskip⟩
          · intro _
            omega
      · rw [show countGroupsAux (c :: rest) esc = countGroupsAux rest false from by
          simp only [countGroupsAux]
          rw [if_neg hc92, if_neg hcap]]
        rw [ih false]
        constructor
        · rintro ⟨u, v, huv, hesc, hsk⟩
          refine ⟨c :: u, v, by rw [huv]; simp, ?_, hsk⟩
          rw [escAfter_cons]
          simpa [escStep, hc92] using hesc
        · rintro ⟨u, v, huv, hesc, hsk⟩
          cases u with
          | nil =>
            exfalso
            simp only [List.nil_append] at huv
            injection huv with h1 h2
            subst h1
            cases esc with
            | false => exact hcap ⟨rfl, rfl⟩
            | true =>
              rw [escAfter_nil] at hesc
              simp at hesc
          | cons c2 u2 =>
            injection huv with h1 h2
            refine ⟨u2, v, h2, ?_, hsk⟩
            rw [escAfter_cons] at hesc
            simpa [escStep, ← h1, hc92] using hesc

/-- The backreference scan fires exactly when an unescaped backslash is
immediately followed by a digit 1-9. -/
theorem hasBackrefAux_iff :
    ∀ (s : List Nat) (esc : Bool),
      (hasBackrefAux s esc = true ↔
        ∃ u d v, s = u ++ 92 :: d :: v ∧ escAfter u esc = false ∧ 49 ≤ d ∧ d ≤ 57) := by
  intro s
  induction s with
  | nil =>
    intro esc
    simp only [hasBackrefAux]
    constructor
    · intro hc; exact absurd hc (by simp)
    · rintro ⟨u, d, v, huv, -⟩
      exfalso
      have hl := congrArg List.length huv
      simp only [List.length_nil, List.length_append, List.length_cons] at hl
      omega
  | cons c rest ih =>
    intro esc
    by_cases hc92 : c = 92
    · subst hc92
      cases rest with
      | nil =>
        rw [show hasBackrefAux [92] esc = hasBackrefAux [] (!esc) from by
          simp [hasBackrefAux]]
        simp only [hasBackrefAux]
        constructor
        · intro hc; exact absurd hc (by simp)
        · rintro ⟨u, d, v, huv, -⟩
          exfalso
          have hl := congrArg List.length huv
          simp only [List.length_cons, List.length_nil, List.length_append] at hl
          omega
      | cons d2 w =>
        by_cases hhit : esc = false ∧ 49 ≤ d2 ∧ d2 ≤ 57
        · rw [show hasBackrefAux (92 :: d2 :: w) esc = true from by
            simp [hasBackrefAux, hhit]]
          constructor
          · intro _
            exact ⟨[], d2, w, rfl, by rw [escAfter_nil, hhit.1], hhit.2.1, hhit.2.2⟩
          · intro _; rfl
        · rw [show hasBackrefAux (92 :: d2 :: w) esc = hasBackrefAux (d2 :: w) (!esc) from by
            simp [hasBackrefAux, hhit]]
          rw [ih (!esc)]
          constructor
          · rintro ⟨u, d, v, huv, hesc, hd1, hd2⟩
            refine ⟨92 :: u, d, v, by rw [huv]; simp, ?_, hd1, hd2⟩
            rw [escAfter_cons]
            simpa [escStep] using hesc
          · rintro ⟨u, d, v, huv, hesc, hd1, hd2⟩
            cases u with
            | nil =>
              exfalso
              simp only [List.nil_append] at huv
              injection huv with h1 h2
              injection h2 with h3 h4
              apply hhit
              rw [escAfter_nil] at hesc
              exact ⟨hesc, by omega, by omega⟩
            | cons c2 u2 =>
              injection huv with h1 h2
              refine ⟨u2, d, v, h2, ?_, hd1, hd2⟩
              rw [escAfter_cons] at hesc
              simpa [escStep, ← h1] using hesc
    · rw [show hasBackrefAux (c :: rest) esc = hasBackrefAux rest false from by
        cases rest with
        | nil => simp [hasBackrefAux, hc92]
        | cons d2 w => simp [hasBackrefAux, hc92]]
      rw [ih false]
      constructor
      · rintro ⟨u, d, v, huv, hesc, hd1, hd2⟩
        refine ⟨c :: u, d, v, by rw [huv]; simp, ?_, hd1, hd2⟩
        rw [escAfter_cons]
        simpa [escStep, hc92] using hesc
      · rintro ⟨u, d, v, huv, hesc, hd1, hd2⟩
        cases u with
        | nil =>
          exfalso
          simp only [List.nil_append] at huv
          injection huv with h1 h2
          exact hc92 h1
        | cons c2 u2 =>
          injection huv with h1 h2
          refine ⟨u2, d, v, h2, ?_, hd1, hd2⟩
          rw [escAfter_cons] at hesc
          simpa [escStep, ← h1, hc92] using hesc

/-- C1: the classifier reports Backtracking exactly when an unescaped
occurrence of a lookaround marker exists, or a capturing group (an
unescaped `(` not introducing `?:`/`?P`) coexists with a backreference
token (an unescaped backslash immediately followed by a digit 1-9) —
"unescaped" meaning preceded by an even run of backslashes; in every other
case, including the empty pattern, it reports Native. -/
theorem C1_needsPCRE_classifier (p : List Nat) :
    (needsPCRE p = true ↔
      LookaroundFound p ∨ (HasCapturingGroup p ∧ HasBackrefToken p)) ∧
    needsPCRE [] = false := by
  have hmarker : ∀ mk ∈ lookaroundMarkers, mk ≠ [] ∧ mk.head? ≠ some 92 := by decide
  have hLA : lookaroundMarkers.any (fun mk => containsGo p mk) = true ↔ LookaroundFound p := by
    rw [List.any_eq_true]
    unfold LookaroundFound UnescapedBefore
    constructor
    · rintro ⟨mk, hmk, hc⟩
      obtain ⟨hne, hh⟩ := hmarker mk hmk
      obtain ⟨u, v, hp2, hu⟩ := (containsAux_iff mk hne hh p false).mp hc
      exact ⟨mk, hmk, u, v, hp2, (escAfter_false_iff u).mp hu⟩
    · rintro ⟨mk, hmk, u, v, hp2, hu⟩
      obtain ⟨hne, hh⟩ := hmarker mk hmk
      exact ⟨mk, hmk,
        (containsAux_iff mk hne hh p false).mpr ⟨u, v, hp2, (escAfter_false_iff u).mpr hu⟩⟩
  have hCAP : 0 < countGroupsAux p false ↔ HasCapturingGroup p := by
    rw [countGroups_pos_iff p false]
    unfold HasCapturingGroup UnescapedBefore
    constructor
    · rintro ⟨u, v, hp2, hu, hsk⟩
      exact ⟨u, v, hp2, (escAfter_false_iff u).mp hu, hsk⟩
    · rintro ⟨u, v, hp2, hu, hsk⟩
      exact ⟨u, v, hp2, (escAfter_false_iff u).mpr hu, hsk⟩
  have hBR : hasBackrefAux p false = true ↔ HasBackrefToken p := by
    rw [hasBackrefAux_iff p false]
    unfold HasBackrefToken UnescapedBefore
    constructor
    · rintro ⟨u, d, v, hp2, hu, hd1, hd2⟩
      exact ⟨u, d, v, hp2, (escAfter_false_iff u).mp hu, hd1, hd2⟩
    · rintro ⟨u, d, v, hp2, hu, hd1, hd2⟩
      exact ⟨u, d, v, hp2, (escAfter_false_iff u).mpr hu, hd1, hd2⟩
  refine ⟨?_, by decide⟩
  unfold needsPCRE
  by_cases hla : lookaroundMarkers.any (fun mk => containsGo p mk) = true
  · rw [if_pos hla]
    simp only [true_iff]
    exact Or.inl (hLA.mp hla)
  · rw [if_neg hla]
    by_cases hg : 0 < countGroupsAux p false
    · rw [if_pos hg]
      rw [hBR]
      constructor
      · intro hbr
        exact Or.inr ⟨hCAP.mp hg, hbr⟩
      · rintro (hlook | ⟨-, hbr⟩)
        · exact absurd (hLA.mpr hlook) hla
        · exact hbr
    · rw [if_neg hg]
      constructor
      · intro hc; exact absurd hc (by simp)
      · rintro (hlook | ⟨hcap, -⟩)
        · exact absurd (hLA.mpr hlook) hla
        · exact absurd (hCAP.mpr hcap) hg
